import Mathlib

/-!
Verification of the structured-note analysis engine of the zotero-mcp-server
repository (file `zotero-mcp-server.js`): the HTML normalizer
`cleanHTMLForDisplay`, the structured-note classifier, and the four query
operations `searchByElicitMetadata`, `getElicitSummary`,
`compareMethodologies`, `extractResearchGaps`.

Strings are modelled as `List Char`; JavaScript string primitives
(`includes`, `indexOf`, `substring`, `toLowerCase`, `replace`, `trim`) and
the regular-expression fragments actually used by the code are embedded as
executable Lean functions over `List Char`.
-/

namespace ZoteroMCP

abbrev Chars := List Char

/-- ASCII uppercase test (the letters `A`–`Z`). -/
def isUpperAscii (c : Char) : Bool :=
  'A' ≤ c && c ≤ 'Z'

/-- Character-wise embedding of JavaScript `toLowerCase` restricted to the
ASCII range: `A`–`Z` map to `a`–`z`, all other characters are unchanged. -/
def jsToLower (c : Char) : Char :=
  if 'A' ≤ c && c ≤ 'Z' then Char.ofNat (c.toNat + 32) else c

/-- Embedding of `s.toLowerCase()` on character lists. -/
def lowerChars (l : Chars) : Chars :=
  l.map jsToLower

/-- First index at which `p` occurs as a contiguous sublist of `s`
(JavaScript `String.prototype.indexOf`). -/
def indexOfSub? (p : Chars) : Chars → Option Nat
  | [] => if p.isPrefixOf ([] : Chars) then some 0 else none
  | c :: rest =>
    if p.isPrefixOf (c :: rest) then some 0
    else (indexOfSub? p rest).map (· + 1)

/-- JavaScript `String.prototype.includes`. -/
def containsSub (p s : Chars) : Bool :=
  (indexOfSub? p s).isSome

theorem isPrefixOf_iff_append {α : Type} [DecidableEq α] (p s : List α) :
    p.isPrefixOf s = true ↔ ∃ t, s = p ++ t := by
  induction p generalizing s with
  | nil => simp [List.isPrefixOf]
  | cons a as ih =>
    cases s with
    | nil =>
      simp [List.isPrefixOf]
    | cons b bs =>
      simp only [List.isPrefixOf, Bool.and_eq_true, beq_iff_eq, ih]
      constructor
      · rintro ⟨rfl, t, rfl⟩
        exact ⟨t, rfl⟩
      · rintro ⟨t, h⟩
        injection h with h1 h2
        exact ⟨h1.symm, t, h2⟩

theorem indexOfSub?_some_occurs {p s : Chars} {i : Nat}
    (h : indexOfSub? p s = some i) : p.isPrefixOf (s.drop i) = true := by
  induction s generalizing i with
  | nil =>
    by_cases hp : p.isPrefixOf ([] : Chars) = true
    · simp [indexOfSub?, hp] at h
      subst h
      simpa using hp
    · simp [indexOfSub?, hp] at h
  | cons c rest ih =>
    by_cases hp : p.isPrefixOf (c :: rest) = true
    · simp [indexOfSub?, hp] at h
      subst h
      simpa using hp
    · simp [indexOfSub?, hp] at h
      obtain ⟨j, hj, rfl⟩ := h
      simpa using ih hj

theorem indexOfSub?_some_least {p s : Chars} {i : Nat}
    (h : indexOfSub? p s = some i) :
    ∀ j, j < i → p.isPrefixOf (s.drop j) = false := by
  induction s generalizing i with
  | nil =>
    intro j hj
    by_cases hp : p.isPrefixOf ([] : Chars) = true
    · simp [indexOfSub?, hp] at h
      omega
    · simp [indexOfSub?, hp] at h
  | cons c rest ih =>
    intro j hj
    by_cases hp : p.isPrefixOf (c :: rest) = true
    · simp [indexOfSub?, hp] at h
      omega
    · simp [indexOfSub?, hp] at h
      obtain ⟨i', hi', rfl⟩ := h
      cases j with
      | zero => simpa using Bool.eq_false_iff.mpr hp
      | succ j' =>
        have := ih hi' j' (by omega)
        simpa using this

theorem indexOfSub?_none {p s : Chars}
    (h : indexOfSub? p s = none) :
    ∀ j, p.isPrefixOf (s.drop j) = false := by
  induction s with
  | nil =>
    intro j
    by_cases hp : p.isPrefixOf ([] : Chars) = true
    · simp [indexOfSub?, hp] at h
    · simpa using Bool.eq_false_iff.mpr hp
  | cons c rest ih =>
    intro j
    by_cases hp : p.isPrefixOf (c :: rest) = true
    · simp [indexOfSub?, hp] at h
    · simp [indexOfSub?, hp] at h
      cases j with
      | zero => simpa using Bool.eq_false_iff.mpr hp
      | succ j' => simpa using ih h j'

theorem containsSub_iff {p s : Chars} :
    containsSub p s = true ↔ ∃ a b, s = a ++ p ++ b := by
  constructor
  · intro h
    rw [containsSub, Option.isSome_iff_exists] at h
    obtain ⟨i, hi⟩ := h
    have hocc := indexOfSub?_some_occurs hi
    rw [isPrefixOf_iff_append] at hocc
    obtain ⟨t, ht⟩ := hocc
    refine ⟨s.take i, t, ?_⟩
    calc s = s.take i ++ s.drop i := (List.take_append_drop i s).symm
    _ = s.take i ++ (p ++ t) := by rw [ht]
    _ = s.take i ++ p ++ t := by rw [List.append_assoc]
  · rintro ⟨a, b, rfl⟩
    rw [containsSub]
    cases hidx : indexOfSub? p (a ++ p ++ b) with
    | some i => simp
    | none =>
      exfalso
      have := indexOfSub?_none hidx a.length
      rw [List.append_assoc, List.drop_left] at this
      have h2 : p.isPrefixOf (p ++ b) = true := (isPrefixOf_iff_append p _).mpr ⟨b, rfl⟩
      rw [this] at h2
      exact Bool.false_ne_true h2

/-- One-pass scanner for the tag-stripping regex `/<[^>]*>/g`. In normal
mode (`inTag = false`) a `<` that has some later `>` opens a tag — the
regex `<[^>]*>` matches from it through the first following `>` — and a
`<` with no later `>` has no match and is kept verbatim; in tag mode
(`inTag = true`) characters are dropped through the closing `>`. -/
def stripTagsGo : Bool → Chars → Chars
  | _, [] => []
  | true, c :: rest =>
    if c = '>' then stripTagsGo false rest else stripTagsGo true rest
  | false, c :: rest =>
    if c = '<' ∧ '>' ∈ rest then stripTagsGo true rest
    else c :: stripTagsGo false rest

/-- Embedding of `.replace(/<[^>]*>/g, '')`. -/
def stripTags (l : Chars) : Chars :=
  stripTagsGo false l

/-- Scanner for the global literal replacement `.replace(/pat/g, repl)`:
scans left to right, replaces each occurrence of `pat`, resumes after the
consumed occurrence (`skip` counts pattern characters still to drop) and
never rescans the replacement text. -/
def replaceGo (pat repl : Chars) : Chars → Nat → Chars
  | [], _ => []
  | _ :: rest, skip + 1 => replaceGo pat repl rest skip
  | c :: rest, 0 =>
    if pat.isPrefixOf (c :: rest) then
      repl ++ replaceGo pat repl rest (pat.length - 1)
    else c :: replaceGo pat repl rest 0

/-- Embedding of `.replace(/pat/g, repl)` for a literal nonempty `pat`. -/
def replaceSub (pat repl : Chars) (l : Chars) : Chars :=
  replaceGo pat repl l 0

/-- Whitespace set recognised by JavaScript `String.prototype.trim`
(restricted to the characters that can appear in this development). -/
def isJsWhitespace (c : Char) : Bool :=
  c = ' ' || c = '\t' || c = '\n' || c = '\r' ||
  c = '\x0b' || c = '\x0c' || c = Char.ofNat 0xa0 || c = Char.ofNat 0xfeff

/-- Embedding of `String.prototype.trim`. -/
def trimChars (l : Chars) : Chars :=
  ((l.dropWhile isJsWhitespace).reverse.dropWhile isJsWhitespace).reverse

/-- Embedding of `cleanHTMLForDisplay` on character lists: strip `<...>`
tags, then decode `&amp; &lt; &gt; &quot; &#39;` in that order, then
replace any remaining literal `<br>` by a space, then trim. -/
def cleanChars (l : Chars) : Chars :=
  trimChars
    (replaceSub "<br>".data [' ']
      (replaceSub "&#39;".data ['\'']
        (replaceSub "&quot;".data ['"']
          (replaceSub "&gt;".data ['>']
            (replaceSub "&lt;".data ['<']
              (replaceSub "&amp;".data ['&']
                (stripTags l)))))))

/-- Embedding of `cleanHTMLForDisplay` on strings; the guard mirrors the
source's `if (!html) return ''` (the empty string is falsy). -/
def cleanHTMLForDisplay (html : String) : String :=
  if html = "" then "" else String.mk (cleanChars html.data)

/-- Characters matched by the regex metacharacter `.` without the `s` flag:
everything except the line terminators. -/
def regexDotOk (c : Char) : Bool :=
  !(c = '\n' || c = '\r' || c = Char.ofNat 0x2028 || c = Char.ofNat 0x2029)

/-- First index `j ≥ start` at which `pat` occurs in `s` (unrestricted
scan, used for `[^>]*>`: the first `>` closes the greedy character class). -/
def findSubFrom (pat s : Chars) (start : Nat) : Nat → Option Nat
  | 0 => none
  | fuel + 1 =>
    if pat.isPrefixOf (s.drop start) then some start
    else if start < s.length then findSubFrom pat s (start + 1) fuel
    else none

/-- Lazy `.*?pat` scan: the least `j ≥ start` at which `pat` occurs in `s`
such that every character of `s` in `[start, j)` is matched by `.`;
`none` when a line terminator or the end of `s` intervenes. -/
def lazyDotFind (pat s : Chars) (start : Nat) : Nat → Option Nat
  | 0 => none
  | fuel + 1 =>
    if pat.isPrefixOf (s.drop start) then some start
    else
      match s.drop start with
      | [] => none
      | c :: _ => if regexDotOk c then lazyDotFind pat s (start + 1) fuel else none

/-- Completion of a match attempt of `<p[^>]*>(.*?)<\/p>` whose `<p` sits at
index `q` of the (lowercased) content: consume through the first `>` after
`<p`, then lazily capture up to the next `</p>`; returns the capture span
`[capStart, capEnd)`. -/
def tryFromP (lc : Chars) (q : Nat) : Option (Nat × Nat) :=
  match findSubFrom ['>'] lc (q + 2) (lc.length + 1) with
  | none => none
  | some g =>
    match lazyDotFind "</p>".data lc (g + 1) (lc.length + 1) with
    | some e => some (g + 1, e)
    | none => none

/-- Backtracking scan of the lazy gap `.*?` between the header literal and
`<p...>`: positions are tried in increasing order, each candidate `<p` is
completed via `tryFromP`, and the gap may only cross `.`-matchable
characters. -/
def scanGap (lc : Chars) (pos : Nat) : Nat → Option (Nat × Nat)
  | 0 => none
  | fuel + 1 =>
    let fallback : Option (Nat × Nat) :=
      match lc.drop pos with
      | [] => none
      | c :: _ => if regexDotOk c then scanGap lc (pos + 1) fuel else none
    if "<p".data.isPrefixOf (lc.drop pos) then
      match tryFromP lc pos with
      | some r => some r
      | none => fallback
    else fallback

/-- Attempt of the whole pattern `hdr.*?<p[^>]*>(.*?)<\/p>` anchored at
index `i` of the lowercased content. -/
def matchHdrAt (hdr lc : Chars) (i : Nat) : Option (Nat × Nat) :=
  if hdr.isPrefixOf (lc.drop i) then scanGap lc (i + hdr.length) (lc.length + 1)
  else none

/-- Leftmost-match search: the regex engine tries every start index in
increasing order. -/
def regexSearch (hdr lc : Chars) (i : Nat) : Nat → Option (Nat × Nat)
  | 0 => none
  | fuel + 1 =>
    match matchHdrAt hdr lc i with
    | some r => some r
    | none => if i < lc.length then regexSearch hdr lc (i + 1) fuel else none

/-- Embedding of `content.match(/hdr.*?<p[^>]*>(.*?)<\/p>/i)?.[1]`: the
first capture group of the leftmost match, taken from the original
(uppercase-preserving) content; `hdr` is given lowercased and the content
is lowercased for the case-insensitive comparison. -/
def regexHeaderPara (hdr : String) (content : Chars) : Option Chars :=
  let lc := lowerChars content
  match regexSearch hdr.data lc 0 (lc.length + 1) with
  | some (a, b) => some ((content.drop a).take (b - a))
  | none => none

/-- Lookahead test for the field patterns `(?=<\/div>|<h[23])`. -/
def lookaheadOk (lc : Chars) (pos : Nat) : Bool :=
  "</div>".data.isPrefixOf (lc.drop pos) ||
  "<h2".data.isPrefixOf (lc.drop pos) ||
  "<h3".data.isPrefixOf (lc.drop pos)

/-- Lazy `.*?(?=<\/div>|<h[23])` scan: least `j ≥ start` where the
lookahead holds, crossing only `.`-matchable characters. -/
def lazyLookFind (lc : Chars) (start : Nat) : Nat → Option Nat
  | 0 => none
  | fuel + 1 =>
    if lookaheadOk lc start then some start
    else
      match lc.drop start with
      | [] => none
      | c :: _ => if regexDotOk c then lazyLookFind lc (start + 1) fuel else none

/-- Attempt of a field pattern `hdr.*?(?=<\/div>|<h[23])` at index `i`;
returns the end index of the match (the lookahead is not consumed). -/
def fieldMatchAt (hdr lc : Chars) (i : Nat) : Option Nat :=
  if hdr.isPrefixOf (lc.drop i) then lazyLookFind lc (i + hdr.length) (lc.length + 1)
  else none

/-- Embedding of `content.match(/hdr.*?(?=<\/div>|<h[23])/gi)`: all
non-overlapping leftmost matches, scanning resuming at each match end. -/
def fieldMatchesFrom (hdr lc : Chars) (i : Nat) : Nat → List Chars
  | 0 => []
  | fuel + 1 =>
    match fieldMatchAt hdr lc i with
    | some e => ((lc.drop i).take (e - i)) :: fieldMatchesFrom hdr lc e fuel
    | none => if i < lc.length then fieldMatchesFrom hdr lc (i + 1) fuel else []

/-- Child record of an item as delivered by the Zotero API: `data.itemType`
and the optional HTML body `data.note` (optional-chained in the source as
`child.data.note?.includes(...)`). -/
structure Child where
  key : String
  itemType : String
  note : Option String
deriving DecidableEq

/-- Bibliographic item together with its fetched children
(`/items/{key}/children`); `creators` is `none` when `item.data.creators`
is absent (the source coalesces with `|| []`). -/
structure Item where
  key : String
  title : String
  creators : Option (List String)
  children : List Child
deriving DecidableEq

/-- Structured-note classifier used by every analysis method:
`child.data.itemType === 'note' && (child.data.note?.includes('Elicit
Analysis') || child.data.note?.includes('elicit-analysis'))`. Both
`includes` checks are case-sensitive. -/
def isStructuredNote (c : Child) : Bool :=
  c.itemType == "note" &&
    (match c.note with
     | some n =>
       containsSub "Elicit Analysis".data n.data ||
       containsSub "elicit-analysis".data n.data
     | none => false)

/-- First structured child note of an item (`children.find(...)`). -/
def findElicitNote (it : Item) : Option Child :=
  it.children.find? isStructuredNote

/-- Arguments of the `search_by_elicit_metadata` tool. -/
structure SearchArgs where
  query : String
  search_field : Option String
  study_design : Option String
  has_intervention : Option Bool
  limit : Option Nat
deriving DecidableEq

/-- One element of the `results` array built by `searchByElicitMetadata`. -/
structure SearchResult where
  key : String
  title : String
  authors : List String
  match_context : String
  elicit_note_key : String
deriving DecidableEq

/-- Match of the "all"-field branch: case-insensitive full-text search over
the lowercased note content; on a hit, the context slice
`[max(0, i-100), min(L, i+200))` of that lowercased content (the source's
`Math.max(0, index-100)` is `Nat` truncated subtraction here). -/
def allFieldMatch (noteContent queryLower : Chars) : Option Chars :=
  match indexOfSub? queryLower noteContent with
  | none => none
  | some i =>
    let start := i - 100
    let stop := min noteContent.length (i + 200)
    some ((noteContent.drop start).take (stop - start))

/-- The `fieldPatterns` table: maps a `search_field` value to the header
literal of its regex (`/header.*?(?=<\/div>|<h[23])/gi`). -/
def fieldHeader? (f : String) : Option String :=
  if f = "summary" then some "summary"
  else if f = "findings" then some "main findings"
  else if f = "methodology" then some "methodology"
  else if f = "limitations" then some "limitations"
  else if f = "intervention" then some "intervention"
  else if f = "research_question" then some "research question"
  else none

/-- Match of the specific-field branch: run the field's `/gi` pattern over
the lowercased content, succeed when some match contains the lowercased
query, and return the first such match as the context. -/
def fieldMatchContext (f : String) (noteContent queryLower : Chars) : Option Chars :=
  match fieldHeader? f with
  | none => none
  | some hdr =>
    let ms := fieldMatchesFrom hdr.data noteContent 0 (noteContent.length + 1)
    if ms = [] then none
    else ms.find? (fun m => containsSub queryLower m)

/-- Branch dispatch of `searchByElicitMetadata`: the source tests
`args.search_field === 'all' || !args.search_field`, so an absent field and
the falsy empty string both take the full-text branch. -/
def itemMatchContext (args : SearchArgs) (noteContent : Chars) : Option Chars :=
  let queryLower := lowerChars args.query.data
  match args.search_field with
  | none => allFieldMatch noteContent queryLower
  | some f =>
    if f = "all" || f = "" then allFieldMatch noteContent queryLower
    else fieldMatchContext f noteContent queryLower

/-- Post-filters of `searchByElicitMetadata`: the `study_design` substring
filter (skipped for a falsy empty string) and the derived
`has_intervention` boolean. -/
def passesFilters (args : SearchArgs) (noteContent : Chars) : Bool :=
  (match args.study_design with
   | some sd =>
     if sd = "" then true
     else containsSub (lowerChars sd.data) noteContent
   | none => true) &&
  (match args.has_intervention with
   | some b =>
     let has := containsSub "intervention".data noteContent &&
       !(containsSub "no intervention".data noteContent)
     b == has
   | none => true)

/-- Per-item body of the search loop: classify, match, filter, build the
result row (with `match_context` passed through `cleanHTMLForDisplay`). -/
def itemResult (args : SearchArgs) (it : Item) : Option SearchResult :=
  match findElicitNote it with
  | none => none
  | some en =>
    let noteContent := lowerChars ((en.note.getD "").data)
    match itemMatchContext args noteContent with
    | none => none
    | some ctx =>
      if passesFilters args noteContent then
        some { key := it.key, title := it.title,
               authors := it.creators.getD [],
               match_context := cleanHTMLForDisplay (String.mk ctx),
               elicit_note_key := en.key }
      else none

/-- Effective limit `args.limit || 10`: both an absent and a zero (falsy)
limit fall back to 10. -/
def effLimit (args : SearchArgs) : Nat :=
  match args.limit with
  | none => 10
  | some n => if n = 0 then 10 else n

/-- The item loop of `searchByElicitMetadata`, including the trailing
`if (results.length >= (args.limit || 10)) break`. -/
def searchLoop (args : SearchArgs) : List Item → List SearchResult → List SearchResult
  | [], acc => acc
  | it :: rest, acc =>
    let acc2 :=
      match itemResult args it with
      | none => acc
      | some r => acc ++ [r]
    if effLimit args ≤ acc2.length then acc2 else searchLoop args rest acc2

/-- Embedding of `searchByElicitMetadata` over an already-fetched item
collection. -/
def searchByElicitMetadata (args : SearchArgs) (items : List Item) : List SearchResult :=
  searchLoop args items []

/-- JavaScript double values reachable in this development: `NaN`, the two
infinities, and finite values (modelled exactly as rationals). -/
inductive JSNum where
  | nan : JSNum
  | inf : JSNum
  | neginf : JSNum
  | num : ℚ → JSNum
deriving DecidableEq

/-- JavaScript division: `0/0` is `NaN`, `x/0` for `x ≠ 0` is a signed
infinity. -/
def jsDiv : JSNum → JSNum → JSNum
  | .nan, _ => .nan
  | _, .nan => .nan
  | .inf, .inf => .nan
  | .inf, .neginf => .nan
  | .neginf, .inf => .nan
  | .neginf, .neginf => .nan
  | .inf, .num _ => .inf
  | .neginf, .num _ => .neginf
  | .num _, .inf => .num 0
  | .num _, .neginf => .num 0
  | .num a, .num b =>
    if b = 0 then (if a = 0 then .nan else if 0 < a then .inf else .neginf)
    else .num (a / b)

/-- JavaScript multiplication on the reachable values. -/
def jsMul : JSNum → JSNum → JSNum
  | .nan, _ => .nan
  | _, .nan => .nan
  | .inf, .inf => .inf
  | .inf, .neginf => .neginf
  | .neginf, .inf => .neginf
  | .neginf, .neginf => .inf
  | .inf, .num b => if b = 0 then .nan else if 0 < b then .inf else .neginf
  | .num a, .inf => if a = 0 then .nan else if 0 < a then .inf else .neginf
  | .neginf, .num b => if b = 0 then .nan else if 0 < b then .neginf else .inf
  | .num a, .neginf => if a = 0 then .nan else if 0 < a then .neginf else .inf
  | .num a, .num b => .num (a * b)

/-- `Math.round`: half-up toward positive infinity on finite values,
identity on `NaN` and the infinities. -/
def jsRound : JSNum → JSNum
  | .num q => .num ((⌊q + 1/2⌋ : ℤ) : ℚ)
  | v => v

/-- The `summary` accumulator object of `getElicitSummary`; the frequency
maps are insertion-ordered association lists, as JavaScript objects are. -/
structure Summary where
  total_papers : Nat
  papers_with_elicit : Nat
  analysis_coverage : List (String × Nat)
  study_designs : List (String × Nat)
  regions : List (String × Nat)
  methodologies : List (String × Nat)
deriving DecidableEq

/-- Increment of `m[k] = (m[k] || 0) + 1` on an insertion-ordered
association list. -/
def bump : List (String × Nat) → String → List (String × Nat)
  | [], k => [(k, 1)]
  | (a, n) :: rest, k =>
    if a = k then (a, n + 1) :: rest else (a, n) :: bump rest k

/-- The `analysisFields` presence vocabulary of `getElicitSummary`. -/
def analysisFields : List String :=
  ["Summary", "Main Findings", "Methodology", "Limitations",
   "Research Question", "Intervention", "Statistical Techniques"]

/-- One entry of the optional `detailed_breakdown` array. -/
structure Breakdown where
  paper_key : String
  paper_title : String
  analysis_fields : List String
  note_key : String
deriving DecidableEq

/-- Loop body of `getElicitSummary` for one item. -/
def summaryStep (acc : Summary × List Breakdown) (includeDetails : Bool)
    (it : Item) : Summary × List Breakdown :=
  match findElicitNote it with
  | none => acc
  | some en =>
    let s := acc.1
    let noteContent := (en.note.getD "").data
    let s := { s with papers_with_elicit := s.papers_with_elicit + 1 }
    let s :=
      match regexHeaderPara "study design" noteContent with
      | some cap =>
        let v := cleanHTMLForDisplay (String.mk cap)
        { s with study_designs := bump s.study_designs v }
      | none => s
    let s :=
      match regexHeaderPara "region" noteContent with
      | some cap =>
        let v := cleanHTMLForDisplay (String.mk cap)
        { s with regions := bump s.regions v }
      | none => s
    let present := analysisFields.filter
      (fun f => containsSub (lowerChars f.data) (lowerChars noteContent))
    let s := { s with analysis_coverage := present.foldl bump s.analysis_coverage }
    let bd :=
      if includeDetails then
        acc.2 ++ [{ paper_key := it.key, paper_title := it.title,
                    analysis_fields := present, note_key := en.key }]
      else acc.2
    (s, bd)

/-- Result object of `getElicitSummary`. -/
structure SummaryOut where
  summary : Summary
  coverage_percentage : JSNum
  detailed_breakdown : Option (List Breakdown)
deriving DecidableEq

/-- Embedding of `getElicitSummary` over an already-fetched item
collection; `coverage_percentage` is
`Math.round((papers_with_elicit / total_papers) * 100)` with no guard. -/
def getElicitSummary (includeDetails : Bool) (items : List Item) : SummaryOut :=
  let init : Summary :=
    { total_papers := items.length, papers_with_elicit := 0,
      analysis_coverage := [], study_designs := [], regions := [],
      methodologies := [] }
  let acc := items.foldl (fun a it => summaryStep a includeDetails it) (init, [])
  { summary := acc.1,
    coverage_percentage :=
      jsRound (jsMul (jsDiv (.num acc.1.papers_with_elicit)
        (.num acc.1.total_papers)) (.num 100)),
    detailed_breakdown := if includeDetails then some acc.2 else none }

/-- One grouped entry of `compareMethodologies`. -/
structure CompEntry where
  key : String
  title : String
  authors : List String
deriving DecidableEq

/-- Push `e` onto group `k` of an insertion-ordered association map
(`comparison[extractedValue].push(...)`, creating the group if absent). -/
def compAdd : List (String × List CompEntry) → String → CompEntry →
    List (String × List CompEntry)
  | [], k, e => [(k, [e])]
  | (a, l) :: rest, k, e =>
    if a = k then (a, l ++ [e]) :: rest else (a, l) :: compAdd rest k e

/-- The `switch (focusArea)` of `compareMethodologies`: extract the focus
field's first paragraph value, coalescing a failed match to
`"No intervention"` for `interventions` and `"Not specified"` for the other
three areas; an unrecognized focus area leaves the value `''`. -/
def extractFocusValue (focusArea : String) (noteContent : Chars) : String :=
  if focusArea = "study_design" then
    match regexHeaderPara "study design" noteContent with
    | some cap => cleanHTMLForDisplay (String.mk cap)
    | none => "Not specified"
  else if focusArea = "statistical_techniques" then
    match regexHeaderPara "statistical techniques" noteContent with
    | some cap => cleanHTMLForDisplay (String.mk cap)
    | none => "Not specified"
  else if focusArea = "interventions" then
    match regexHeaderPara "intervention" noteContent with
    | some cap => cleanHTMLForDisplay (String.mk cap)
    | none => "No intervention"
  else if focusArea = "outcomes" then
    match regexHeaderPara "outcome measured" noteContent with
    | some cap => cleanHTMLForDisplay (String.mk cap)
    | none => "Not specified"
  else ""

/-- Loop body of `compareMethodologies` for one item: skip items without a
structured note, otherwise push the item's row onto the group keyed by the
extracted focus value. -/
def compStep (focusArea : String) (m : List (String × List CompEntry)) (it : Item) :
    List (String × List CompEntry) :=
  match findElicitNote it with
  | none => m
  | some en =>
    compAdd m (extractFocusValue focusArea ((en.note.getD "").data))
      { key := it.key, title := it.title, authors := it.creators.getD [] }

/-- Embedding of `compareMethodologies` over an already-fetched item
collection: group every item carrying a structured note under its extracted
focus value. -/
def compareMethodologies (focusArea : String) (items : List Item) :
    List (String × List CompEntry) :=
  items.foldl (compStep focusArea) []

/-- One gap record of `extractResearchGaps`; `gapType` embeds the optional
`type: 'future_research'` marker. -/
structure GapRecord where
  paper_key : String
  paper_title : String
  research_gap : String
  gapType : Option String
deriving DecidableEq

/-- Gap records contributed by a single item: the "Research Gaps" value and
the "Future Research" value, each kept when truthy, not the placeholder,
and longer than 10 characters. -/
def itemGaps (it : Item) : List GapRecord :=
  match findElicitNote it with
  | none => []
  | some en =>
    let noteContent := (en.note.getD "").data
    let g1 :=
      match regexHeaderPara "research gaps" noteContent with
      | some cap =>
        let t := cleanHTMLForDisplay (String.mk cap)
        if t ≠ "" ∧ t ≠ "Not specified" ∧ 10 < t.length then
          [{ paper_key := it.key, paper_title := it.title,
             research_gap := t, gapType := none }]
        else []
      | none => []
    let g2 :=
      match regexHeaderPara "future research" noteContent with
      | some cap =>
        let t := cleanHTMLForDisplay (String.mk cap)
        if t ≠ "" ∧ t ≠ "Not specified" ∧ 10 < t.length then
          [{ paper_key := it.key, paper_title := it.title,
             research_gap := t, gapType := some "future_research" }]
        else []
      | none => []
    g1 ++ g2

/-- The flat `gaps` list of `extractResearchGaps`. -/
def extractResearchGaps (items : List Item) : List GapRecord :=
  (items.map itemGaps).flatten

/-- The fixed grouping vocabulary of `extractResearchGaps`. -/
def gapKeywords : List String :=
  ["machine learning", "intervention", "longitudinal", "causal",
   "randomized", "sample size", "methodology"]

/-- The `relatedGaps` list for one keyword: the gap records whose text
contains the keyword case-insensitively. -/
def gapBucket (gaps : List GapRecord) (kw : String) : List GapRecord :=
  gaps.filter (fun g => containsSub kw.data (lowerChars g.research_gap.data))

/-- Loop body of the `groupSimilar` grouping: add the keyword's bucket when
it is nonempty. -/
def groupStep (gaps : List GapRecord) (m : List (String × List GapRecord))
    (kw : String) : List (String × List GapRecord) :=
  if gapBucket gaps kw = [] then m else m ++ [(kw, gapBucket gaps kw)]

/-- The `grouped_gaps` object built when `groupSimilar` is set: for each
keyword in order, the sublist of gap records whose text contains it
case-insensitively, omitting empty buckets. -/
def groupGaps (gaps : List GapRecord) : List (String × List GapRecord) :=
  gapKeywords.foldl (groupStep gaps) []

theorem stripTagsGo_subset {m : Bool} {l : Chars} {c : Char}
    (h : c ∈ stripTagsGo m l) : c ∈ l := by
  induction l generalizing m with
  | nil => cases m <;> simp [stripTagsGo] at h
  | cons a rest ih =>
    cases m with
    | true =>
      simp only [stripTagsGo] at h
      split at h
      · exact List.mem_cons_of_mem _ (ih h)
      · exact List.mem_cons_of_mem _ (ih h)
    | false =>
      simp only [stripTagsGo] at h
      split at h
      · exact List.mem_cons_of_mem _ (ih h)
      · rcases List.mem_cons.mp h with h1 | h1
        · exact h1 ▸ List.mem_cons_self a rest
        · exact List.mem_cons_of_mem _ (ih h1)

theorem stripTagsGo_inTag {body r : Chars} (hb : '>' ∉ body) :
    stripTagsGo true (body ++ '>' :: r) = stripTagsGo false r := by
  induction body with
  | nil => simp [stripTagsGo]
  | cons a bs ih =>
    have ha : a ≠ '>' := fun h => hb (h ▸ List.mem_cons_self a bs)
    simp only [List.cons_append, stripTagsGo, if_neg ha]
    exact ih (fun h => hb (List.mem_cons_of_mem _ h))

theorem stripTags_tag {body r : Chars} (hb : '>' ∉ body) :
    stripTagsGo false ('<' :: body ++ '>' :: r) = stripTagsGo false r := by
  have hcond : ('<' : Char) = '<' ∧ '>' ∈ body ++ '>' :: r :=
    ⟨rfl, List.mem_append_right _ (List.mem_cons_self _ _)⟩
  rw [List.cons_append]
  show (if '<' = '<' ∧ '>' ∈ body ++ '>' :: r then stripTagsGo true (body ++ '>' :: r)
        else '<' :: stripTagsGo false (body ++ '>' :: r)) = stripTagsGo false r
  rw [if_pos hcond]
  exact stripTagsGo_inTag hb

theorem stripTags_text {t r : Chars} (ht : '<' ∉ t) :
    stripTagsGo false (t ++ r) = t ++ stripTagsGo false r := by
  induction t with
  | nil => simp
  | cons a ts ih =>
    have ha : a ≠ '<' := fun h => ht (h ▸ List.mem_cons_self a ts)
    have hcond : ¬ (a = '<' ∧ '>' ∈ ts ++ r) := fun hc => ha hc.1
    rw [List.cons_append]
    show (if a = '<' ∧ '>' ∈ ts ++ r then stripTagsGo true (ts ++ r)
          else a :: stripTagsGo false (ts ++ r)) = a :: ts ++ stripTagsGo false r
    rw [if_neg hcond, ih (fun h => ht (List.mem_cons_of_mem _ h))]
    rfl

theorem replaceGo_subset {pat repl : Chars} {c : Char} {l : Chars} {skip : Nat}
    (h : c ∈ replaceGo pat repl l skip) : c ∈ repl ∨ c ∈ l := by
  induction l generalizing skip with
  | nil => simp [replaceGo] at h
  | cons a rest ih =>
    cases skip with
    | succ k =>
      rcases ih h with h1 | h1
      · exact Or.inl h1
      · exact Or.inr (List.mem_cons_of_mem _ h1)
    | zero =>
      by_cases hp : pat.isPrefixOf (a :: rest) = true
      · simp only [replaceGo, if_pos hp, List.mem_append] at h
        rcases h with h1 | h1
        · exact Or.inl h1
        · rcases ih h1 with h2 | h2
          · exact Or.inl h2
          · exact Or.inr (List.mem_cons_of_mem _ h2)
      · simp only [replaceGo, if_neg hp, List.mem_cons] at h
        rcases h with h1 | h1
        · exact Or.inr (h1 ▸ List.mem_cons_self a rest)
        · rcases ih h1 with h2 | h2
          · exact Or.inl h2
          · exact Or.inr (List.mem_cons_of_mem _ h2)

theorem replaceGo_no_head {p0 : Char} {pt repl l : Chars} (hl : p0 ∉ l) :
    replaceGo (p0 :: pt) repl l 0 = l := by
  induction l with
  | nil => rfl
  | cons a rest ih =>
    have ha : (p0 == a) = false :=
      beq_eq_false_iff_ne.mpr (fun h => hl (h ▸ List.mem_cons_self a rest))
    have hp : (p0 :: pt).isPrefixOf (a :: rest) = false := by
      simp [List.isPrefixOf, ha]
    simp only [replaceGo, hp, Bool.false_eq_true, if_false]
    rw [ih (fun h => hl (List.mem_cons_of_mem _ h))]

theorem trimChars_subset {l : Chars} {c : Char} (h : c ∈ trimChars l) : c ∈ l := by
  unfold trimChars at h
  rw [List.mem_reverse] at h
  have h1 := (List.dropWhile_sublist _).mem h
  rw [List.mem_reverse] at h1
  exact (List.dropWhile_sublist _).mem h1

theorem cleanChars_subset {l : Chars} {c : Char} (h : c ∈ cleanChars l) :
    c ∈ l ∨ c ∈ [' ', '\'', '"', '>', '<', '&'] := by
  unfold cleanChars at h
  have h1 := trimChars_subset h
  rcases replaceGo_subset h1 with h2 | h2
  · right; simp at h2; simp [h2]
  rcases replaceGo_subset h2 with h3 | h3
  · right; simp at h3; simp [h3]
  rcases replaceGo_subset h3 with h4 | h4
  · right; simp at h4; simp [h4]
  rcases replaceGo_subset h4 with h5 | h5
  · right; simp at h5; simp [h5]
  rcases replaceGo_subset h5 with h6 | h6
  · right; simp at h6; simp [h6]
  rcases replaceGo_subset h6 with h7 | h7
  · right; simp at h7; simp [h7]
  exact Or.inl (stripTagsGo_subset h7)

/-- Well-formed tag segment: `<` followed by a body without `>` and a
closing `>` (equivalently, the first `>` of the tail is its last
character). -/
def isTagSeg : Chars → Bool
  | c0 :: rest => c0 = '<' && rest.dropWhile (· ≠ '>') == ['>']
  | [] => false

/-- Plain-text segment: no angle brackets and no ampersand. -/
def isTextSeg (seg : Chars) : Bool :=
  seg.all (fun c => c ≠ '<' && c ≠ '>' && c ≠ '&')

theorem isTagSeg_shape {seg : Chars} (h : isTagSeg seg = true) :
    ∃ body, seg = '<' :: body ++ ['>'] ∧ '>' ∉ body := by
  cases seg with
  | nil => simp [isTagSeg] at h
  | cons c0 rest =>
    simp only [isTagSeg, Bool.and_eq_true, decide_eq_true_eq, beq_iff_eq] at h
    obtain ⟨rfl, hdw⟩ := h
    refine ⟨rest.takeWhile (· ≠ '>'), ?_, ?_⟩
    · conv_lhs => rw [← List.takeWhile_append_dropWhile (p := fun c => c ≠ '>') (l := rest)]
      rw [hdw]
      simp
    · intro hmem
      have := List.mem_takeWhile_imp hmem
      simp at this

theorem isTextSeg_no_special {seg : Chars} (h : isTextSeg seg = true) :
    ∀ c ∈ seg, c ≠ '<' ∧ c ≠ '>' ∧ c ≠ '&' := by
  intro c hc
  have := List.all_eq_true.mp h c hc
  simp only [Bool.and_eq_true, decide_eq_true_eq] at this
  exact ⟨this.1.1, this.1.2, this.2⟩

theorem stripTags_flatten_clean {segs : List Chars}
    (h : ∀ seg ∈ segs, isTagSeg seg = true ∨ isTextSeg seg = true) :
    ∀ c ∈ stripTagsGo false segs.flatten, c ≠ '<' ∧ c ≠ '>' ∧ c ≠ '&' := by
  induction segs with
  | nil => simp [stripTagsGo]
  | cons seg rest ih =>
    have hrest := ih (fun s hs => h s (List.mem_cons_of_mem _ hs))
    rcases h seg (List.mem_cons_self _ _) with htag | htext
    · obtain ⟨body, rfl, hb⟩ := isTagSeg_shape htag
      intro c hc
      have hshape : ('<' :: body ++ ['>']) ++ rest.flatten =
          '<' :: body ++ '>' :: rest.flatten := by simp
      rw [List.flatten_cons, hshape, stripTags_tag hb] at hc
      exact hrest c hc
    · intro c hc
      rw [List.flatten_cons, stripTags_text
        (fun hmem => ((isTextSeg_no_special htext) '<' hmem).1 rfl)] at hc
      rcases List.mem_append.mp hc with h1 | h1
      · exact isTextSeg_no_special htext c h1
      · exact hrest c h1

/-- Claim C3 (amended): for inputs made of well-formed `<...>` tag segments
and plain-text segments free of angle brackets and ampersands, the
normalizer's output contains no `<` and no `>`; the original claim fails
because entity-encoded markup such as `"&lt;p&gt;"` is decoded back into
literal `<`/`>` after tag stripping (see the counterexample). -/
theorem clean_no_angle_of_wellformed (segs : List Chars)
    (h : ∀ seg ∈ segs, isTagSeg seg = true ∨ isTextSeg seg = true) :
    '<' ∉ cleanChars segs.flatten ∧ '>' ∉ cleanChars segs.flatten := by
  have hstrip := stripTags_flatten_clean h
  have hamp : '&' ∉ stripTagsGo false segs.flatten :=
    fun hm => ((hstrip '&' hm).2.2) rfl
  have hlt : '<' ∉ stripTagsGo false segs.flatten :=
    fun hm => ((hstrip '<' hm).1) rfl
  have hgt : '>' ∉ stripTagsGo false segs.flatten :=
    fun hm => ((hstrip '>' hm).2.1) rfl
  have hchain : cleanChars segs.flatten = trimChars (stripTagsGo false segs.flatten) := by
    unfold cleanChars
    rw [show stripTags segs.flatten = stripTagsGo false segs.flatten from rfl]
    rw [show replaceSub "&amp;".data ['&'] (stripTagsGo false segs.flatten) =
        stripTagsGo false segs.flatten from replaceGo_no_head hamp]
    rw [show replaceSub "&lt;".data ['<'] (stripTagsGo false segs.flatten) =
        stripTagsGo false segs.flatten from replaceGo_no_head hamp]
    rw [show replaceSub "&gt;".data ['>'] (stripTagsGo false segs.flatten) =
        stripTagsGo false segs.flatten from replaceGo_no_head hamp]
    rw [show replaceSub "&quot;".data ['"'] (stripTagsGo false segs.flatten) =
        stripTagsGo false segs.flatten from replaceGo_no_head hamp]
    rw [show replaceSub "&#39;".data ['\''] (stripTagsGo false segs.flatten) =
        stripTagsGo false segs.flatten from replaceGo_no_head hamp]
    rw [show replaceSub "<br>".data [' '] (stripTagsGo false segs.flatten) =
        stripTagsGo false segs.flatten from replaceGo_no_head hlt]
  rw [hchain]
  exact ⟨fun hm => hlt (trimChars_subset hm), fun hm => hgt (trimChars_subset hm)⟩

/-- Witness for the amended claim C3 on a concrete well-formed input. -/
theorem clean_no_angle_of_wellformed_witness :
    '<' ∉ cleanChars (["<p>".data, "hello".data, "</p>".data] : List Chars).flatten ∧
    '>' ∉ cleanChars (["<p>".data, "hello".data, "</p>".data] : List Chars).flatten :=
  clean_no_angle_of_wellformed _ (by decide)

/-- Claim C9 (amended): a literal `<br>` between angle-bracket-free,
ampersand-free text is removed by the tag-stripping pass (which runs before
the dedicated `<br>` replacement), so it is deleted, not converted to a
space: normalizing `"cat<br>dog"` yields `"catdog"`. -/
theorem clean_br_removed (a b : Chars)
    (ha : isTextSeg a = true) (hb : isTextSeg b = true) :
    cleanChars (a ++ "<br>".data ++ b) = trimChars (a ++ b) := by
  have hna : '<' ∉ a := fun hm => ((isTextSeg_no_special ha) '<' hm).1 rfl
  have hgbody : '>' ∉ ("br".data : Chars) := by decide
  have hbfix : stripTagsGo false b = b := by
    have h0 := stripTags_text (t := b) (r := [])
      (fun hm => ((isTextSeg_no_special hb) '<' hm).1 rfl)
    rw [List.append_nil] at h0
    rw [h0]
    show b ++ ([] : Chars) = b
    exact List.append_nil b
  have hstrip : stripTagsGo false (a ++ "<br>".data ++ b) = a ++ b := by
    rw [List.append_assoc]
    rw [show ("<br>".data : Chars) ++ b = '<' :: "br".data ++ '>' :: b from rfl]
    rw [stripTags_text hna, stripTags_tag hgbody, hbfix]
  have hamp : '&' ∉ a ++ b := by
    intro hm
    rcases List.mem_append.mp hm with h1 | h1
    · exact ((isTextSeg_no_special ha) '&' h1).2.2 rfl
    · exact ((isTextSeg_no_special hb) '&' h1).2.2 rfl
  have hlt2 : '<' ∉ a ++ b := by
    intro hm
    rcases List.mem_append.mp hm with h1 | h1
    · exact ((isTextSeg_no_special ha) '<' h1).1 rfl
    · exact ((isTextSeg_no_special hb) '<' h1).1 rfl
  unfold cleanChars
  rw [show stripTags (a ++ "<br>".data ++ b) = a ++ b from hstrip]
  rw [show replaceSub "&amp;".data ['&'] (a ++ b) = a ++ b from replaceGo_no_head hamp]
  rw [show replaceSub "&lt;".data ['<'] (a ++ b) = a ++ b from replaceGo_no_head hamp]
  rw [show replaceSub "&gt;".data ['>'] (a ++ b) = a ++ b from replaceGo_no_head hamp]
  rw [show replaceSub "&quot;".data ['"'] (a ++ b) = a ++ b from replaceGo_no_head hamp]
  rw [show replaceSub "&#39;".data ['\''] (a ++ b) = a ++ b from replaceGo_no_head hamp]
  rw [show replaceSub "<br>".data [' '] (a ++ b) = a ++ b from replaceGo_no_head hlt2]

/-- Witness for the amended claim C9: `"cat<br>dog"` normalizes to the
plain concatenation `"catdog"`. -/
theorem clean_br_removed_witness :
    cleanChars ("cat".data ++ "<br>".data ++ "dog".data) =
      trimChars ("cat".data ++ "dog".data) ∧
    trimChars ("cat".data ++ "dog".data) = "catdog".data :=
  ⟨clean_br_removed "cat".data "dog".data (by decide) (by decide), by decide⟩

theorem toNat_ofNat_valid {n : Nat} (h : n.isValidChar) : (Char.ofNat n).toNat = n := by
  rw [Char.ofNat, dif_pos h]
  rfl

theorem char_le_toNat {a b : Char} (h : a ≤ b) : a.toNat ≤ b.toNat := by
  rw [Char.le_def] at h
  exact h

theorem char_toNat_le {a b : Char} (h : a.toNat ≤ b.toNat) : a ≤ b := by
  rw [Char.le_def]
  exact h

theorem jsToLower_not_upper (c : Char) : isUpperAscii (jsToLower c) = false := by
  unfold jsToLower
  by_cases h : ('A' ≤ c && c ≤ 'Z') = true
  · rw [if_pos h]
    simp only [Bool.and_eq_true, decide_eq_true_eq] at h
    have h1 : 65 ≤ c.toNat := char_le_toNat h.1
    have h2 : c.toNat ≤ 90 := char_le_toNat h.2
    have hvalid : (c.toNat + 32).isValidChar := Or.inl (by omega)
    have hval : (Char.ofNat (c.toNat + 32)).toNat = c.toNat + 32 :=
      toNat_ofNat_valid hvalid
    unfold isUpperAscii
    have hz : ('Z' : Char).toNat = 90 := by decide
    have hnle : ¬ (Char.ofNat (c.toNat + 32) ≤ 'Z') := by
      intro hle
      have hle2 := char_le_toNat hle
      rw [hval, hz] at hle2
      omega
    simp [hnle]
  · rw [if_neg h]
    unfold isUpperAscii
    exact Bool.eq_false_iff.mpr h

theorem lowerChars_not_upper {l : Chars} {c : Char} (h : c ∈ lowerChars l) :
    isUpperAscii c = false := by
  unfold lowerChars at h
  obtain ⟨a, _, rfl⟩ := List.mem_map.mp h
  exact jsToLower_not_upper a

theorem cleanChars_not_upper {l : Chars} {c : Char}
    (hl : ∀ x ∈ l, isUpperAscii x = false) (h : c ∈ cleanChars l) :
    isUpperAscii c = false := by
  rcases cleanChars_subset h with h1 | h1
  · exact hl c h1
  · fin_cases h1 <;> decide

theorem allFieldMatch_subset {nc q ctx : Chars} (h : allFieldMatch nc q = some ctx) :
    ∀ c ∈ ctx, c ∈ nc := by
  unfold allFieldMatch at h
  cases hidx : indexOfSub? q nc with
  | none => rw [hidx] at h; simp at h
  | some i =>
    rw [hidx] at h
    simp only [Option.some_inj] at h
    subst h
    intro c hc
    exact List.mem_of_mem_drop (List.mem_of_mem_take hc)

theorem fieldMatchesFrom_subset {hdr lc : Chars} {i fuel : Nat} {m : Chars}
    (h : m ∈ fieldMatchesFrom hdr lc i fuel) : ∀ c ∈ m, c ∈ lc := by
  induction fuel generalizing i with
  | zero => simp [fieldMatchesFrom] at h
  | succ f ih =>
    unfold fieldMatchesFrom at h
    cases he : fieldMatchAt hdr lc i with
    | some e =>
      rw [he] at h
      rcases List.mem_cons.mp h with h1 | h1
      · subst h1
        intro c hc
        exact List.mem_of_mem_drop (List.mem_of_mem_take hc)
      · exact ih h1
    | none =>
      rw [he] at h
      by_cases hi : i < lc.length
      · rw [if_pos hi] at h
        exact ih h
      · rw [if_neg hi] at h
        simp at h

theorem itemMatchContext_subset {args : SearchArgs} {nc ctx : Chars}
    (h : itemMatchContext args nc = some ctx) : ∀ c ∈ ctx, c ∈ nc := by
  unfold itemMatchContext at h
  cases hf : args.search_field with
  | none =>
    rw [hf] at h
    exact allFieldMatch_subset h
  | some f =>
    rw [hf] at h
    dsimp only at h
    by_cases hff : f = "all" || f = ""
    · rw [if_pos hff] at h
      exact allFieldMatch_subset h
    · rw [if_neg hff] at h
      unfold fieldMatchContext at h
      cases hh : fieldHeader? f with
      | none => rw [hh] at h; simp at h
      | some hdr =>
        rw [hh] at h
        dsimp only at h
        by_cases hms : fieldMatchesFrom hdr.data nc 0 (nc.length + 1) = []
        · rw [if_pos hms] at h; simp at h
        · rw [if_neg hms] at h
          have hmem := List.mem_of_find?_eq_some h
          exact fieldMatchesFrom_subset hmem

theorem searchLoop_mem {args : SearchArgs} {items : List Item}
    {acc : List SearchResult} {r : SearchResult}
    (h : r ∈ searchLoop args items acc) :
    r ∈ acc ∨ ∃ it ∈ items, itemResult args it = some r := by
  induction items generalizing acc with
  | nil => exact Or.inl h
  | cons it rest ih =>
    unfold searchLoop at h
    cases hir : itemResult args it with
    | none =>
      rw [hir] at h
      dsimp only at h
      split at h
      · exact Or.inl h
      · rcases ih h with h1 | ⟨it', hmem, h1⟩
        · exact Or.inl h1
        · exact Or.inr ⟨it', List.mem_cons_of_mem _ hmem, h1⟩
    | some r0 =>
      rw [hir] at h
      dsimp only at h
      split at h
      · rcases List.mem_append.mp h with h1 | h1
        · exact Or.inl h1
        · rcases List.mem_singleton.mp h1 with rfl
          exact Or.inr ⟨it, List.mem_cons_self _ _, hir⟩
      · rcases ih h with h1 | ⟨it', hmem, h1⟩
        · rcases List.mem_append.mp h1 with h2 | h2
          · exact Or.inl h2
          · rcases List.mem_singleton.mp h2 with rfl
            exact Or.inr ⟨it, List.mem_cons_self _ _, hir⟩
        · exact Or.inr ⟨it', List.mem_cons_of_mem _ hmem, h1⟩

theorem itemResult_context {args : SearchArgs} {it : Item} {r : SearchResult}
    (h : itemResult args it = some r) :
    ∃ en ctx, findElicitNote it = some en ∧
      itemMatchContext args (lowerChars ((en.note.getD "").data)) = some ctx ∧
      r.match_context = cleanHTMLForDisplay (String.mk ctx) := by
  unfold itemResult at h
  cases hen : findElicitNote it with
  | none => rw [hen] at h; simp at h
  | some en =>
    rw [hen] at h
    dsimp only at h
    cases hctx : itemMatchContext args (lowerChars ((en.note.getD "").data)) with
    | none => rw [hctx] at h; simp at h
    | some ctx =>
      rw [hctx] at h
      dsimp only at h
      by_cases hfil : passesFilters args (lowerChars ((en.note.getD "").data)) = true
      · rw [if_pos hfil] at h
        simp only [Option.some_inj] at h
        subst h
        exact ⟨en, ctx, rfl, hctx, rfl⟩
      · rw [if_neg hfil] at h
        simp at h

/-- Claim C10: for a search with field "all" or omitted, the returned
match_context is drawn from the lowercased note content, passed through the
HTML normalizer (which only removes characters or introduces lowercase-free
replacement characters), so it contains no ASCII uppercase letter. -/
theorem search_context_no_uppercase (args : SearchArgs) (items : List Item)
    (r : SearchResult) (c : Char)
    (hf : args.search_field = some "all" ∨ args.search_field = none)
    (hr : r ∈ searchByElicitMetadata args items)
    (hc : c ∈ r.match_context.data) :
    isUpperAscii c = false := by
  rcases searchLoop_mem hr with h | ⟨it, _, hir⟩
  · simp at h
  obtain ⟨en, ctx, hen, hictx, hmc⟩ := itemResult_context hir
  rw [hmc] at hc
  unfold cleanHTMLForDisplay at hc
  by_cases hemp : String.mk ctx = ""
  · rw [if_pos hemp] at hc
    simp [String.data] at hc
  · rw [if_neg hemp] at hc
    have hc2 : c ∈ cleanChars ctx := hc
    refine cleanChars_not_upper ?_ hc2
    intro x hx
    exact lowerChars_not_upper (itemMatchContext_subset hictx x hx)

def c10Args : SearchArgs :=
  { query := "climate", search_field := some "all", study_design := none,
    has_intervention := none, limit := none }

def c10Items : List Item :=
  [{ key := "Kc", title := "Tc", creators := none,
     children := [{ key := "Nc", itemType := "note",
                    note := some "elicit-analysis <b>Climate</b>" }] }]

/-- Witness for claim C10 at a concrete search call whose note content is
mixed-case HTML. -/
theorem search_context_no_uppercase_witness : isUpperAscii 'e' = false :=
  search_context_no_uppercase c10Args c10Items
    { key := "Kc", title := "Tc", authors := [],
      match_context := "elicit-analysis climate", elicit_note_key := "Nc" } 'e'
    (Or.inl rfl) (by decide) (by decide)

theorem effLimit_pos (args : SearchArgs) : 1 ≤ effLimit args := by
  cases hl : args.limit with
  | none => simp [effLimit, hl]
  | some n =>
    by_cases hn : n = 0
    · simp [effLimit, hl, hn]
    · simp only [effLimit, hl, if_neg hn]
      omega

theorem searchLoop_spec (args : SearchArgs) (items : List Item) :
    ∀ acc : List SearchResult, acc.length < effLimit args →
    ∃ k, searchLoop args items acc = acc ++ (items.take k).filterMap (itemResult args) ∧
      (searchLoop args items acc).length ≤ effLimit args ∧
      ((searchLoop args items acc).length = effLimit args ∨ k = items.length) := by
  induction items with
  | nil =>
    intro acc hacc
    refine ⟨0, by simp [searchLoop], ?_, Or.inr rfl⟩
    simp only [searchLoop]
    omega
  | cons it rest ih =>
    intro acc hacc
    cases hir : itemResult args it with
    | none =>
      have hlt : ¬ (effLimit args ≤ acc.length) := by omega
      have hred : searchLoop args (it :: rest) acc = searchLoop args rest acc := by
        simp only [searchLoop, hir]
        rw [if_neg hlt]
      obtain ⟨k, h1, h2, h3⟩ := ih acc hacc
      refine ⟨k + 1, ?_, ?_, ?_⟩
      · rw [hred, h1, List.take_succ_cons, List.filterMap_cons_none hir]
      · rw [hred]; exact h2
      · rw [hred]
        rcases h3 with h | h
        · exact Or.inl h
        · exact Or.inr (by simp [h])
    | some r =>
      by_cases hbr : effLimit args ≤ acc.length + 1
      · have hred : searchLoop args (it :: rest) acc = acc ++ [r] := by
          simp only [searchLoop, hir]
          rw [if_pos (show effLimit args ≤ (acc ++ [r]).length by simp; omega)]
        refine ⟨1, ?_, ?_, Or.inl ?_⟩
        · rw [hred]
          simp [List.filterMap_cons, hir]
        · rw [hred]
          simp
          omega
        · rw [hred]
          simp
          omega
      · have hred : searchLoop args (it :: rest) acc =
            searchLoop args rest (acc ++ [r]) := by
          simp only [searchLoop, hir]
          rw [if_neg (show ¬ effLimit args ≤ (acc ++ [r]).length by simp; omega)]
        obtain ⟨k, h1, h2, h3⟩ := ih (acc ++ [r]) (by simp; omega)
        refine ⟨k + 1, ?_, ?_, ?_⟩
        · rw [hred, h1, List.take_succ_cons]
          simp [List.filterMap_cons, hir]
        · rw [hred]; exact h2
        · rw [hred]
          rcases h3 with h | h
          · exact Or.inl h
          · exact Or.inr (by simp [h])

/-- Claim C5 (amended): for every search call whose limit is a positive
integer n, the result list has length at most n and consists of exactly the
matches found in a scanned prefix of the item collection, scanning having
stopped either because n matches were collected or because the collection
was exhausted. (A limit of 0 is falsy and falls back to the default 10, see
the counterexample.) -/
theorem search_limit_bound (args : SearchArgs) (items : List Item) (n : Nat)
    (hl : args.limit = some n) (hn : 1 ≤ n) :
    (searchByElicitMetadata args items).length ≤ n ∧
    ∃ k, searchByElicitMetadata args items = (items.take k).filterMap (itemResult args) ∧
      ((searchByElicitMetadata args items).length = n ∨ k = items.length) := by
  have he : effLimit args = n := by
    simp only [effLimit, hl]
    rw [if_neg (show ¬ n = 0 by omega)]
  obtain ⟨k, h1, h2, h3⟩ := searchLoop_spec args items [] (by rw [he]; simpa using hn)
  rw [he] at h2 h3
  refine ⟨h2, k, ?_, h3⟩
  rw [show searchByElicitMetadata args items = searchLoop args items [] from rfl, h1]
  simp

def c5wArgs : SearchArgs :=
  { query := "climate", search_field := some "all", study_design := none,
    has_intervention := none, limit := some 2 }

def c5wItems : List Item :=
  [{ key := "W1", title := "T1", creators := none,
     children := [{ key := "M1", itemType := "note",
                    note := some "elicit-analysis climate one" }] },
   { key := "W2", title := "T2", creators := none,
     children := [{ key := "M2", itemType := "note",
                    note := some "elicit-analysis climate two" }] },
   { key := "W3", title := "T3", creators := none,
     children := [{ key := "M3", itemType := "note",
                    note := some "elicit-analysis climate three" }] }]

/-- Witness for the amended claim C5: a limit of 2 over three matching
items returns exactly the first two matches. -/
theorem search_limit_bound_witness :
    (searchByElicitMetadata c5wArgs c5wItems).length ≤ 2 ∧
    ∃ k, searchByElicitMetadata c5wArgs c5wItems =
        (c5wItems.take k).filterMap (itemResult c5wArgs) ∧
      ((searchByElicitMetadata c5wArgs c5wItems).length = 2 ∨ k = c5wItems.length) :=
  search_limit_bound c5wArgs c5wItems 2 rfl (by omega)

theorem itemMatchContext_all {args : SearchArgs} {nc : Chars}
    (hf : args.search_field = some "all" ∨ args.search_field = none) :
    itemMatchContext args nc = allFieldMatch nc (lowerChars args.query.data) := by
  unfold itemMatchContext
  rcases hf with h | h
  · rw [h]
    dsimp only
    simp
  · rw [h]

def c4Args : SearchArgs :=
  { query := "climate", search_field := some "all", study_design := none,
    has_intervention := none, limit := none }

def c4Items : List Item :=
  [{ key := "K4", title := "T4", creators := none,
     children := [{ key := "N4", itemType := "note",
                    note := some "elicit-analysis <b>Climate</b>" }] }]

/-- Claim C4, counterexample: on a note whose lowercased content is
`"elicit-analysis <b>climate</b>"` (length 30) the query `"climate"` first
matches at index 19, so the claimed exact slice `[0, 30)` is the whole
content including its markup; the search instead returns the slice passed
through `cleanHTMLForDisplay`, i.e. `"elicit-analysis climate"`, which is
not the claimed character-for-character slice. -/
theorem C4_counterexample :
    indexOfSub? (lowerChars "climate".data)
      (lowerChars "elicit-analysis <b>Climate</b>".data) = some 19 ∧
    ((lowerChars "elicit-analysis <b>Climate</b>".data).drop (19 - 100)).take
        (min (lowerChars "elicit-analysis <b>Climate</b>".data).length (19 + 200)
          - (19 - 100)) = "elicit-analysis <b>climate</b>".data ∧
    (searchByElicitMetadata c4Args c4Items).map SearchResult.match_context =
      ["elicit-analysis climate"] ∧
    ("elicit-analysis climate" : String) ≠ "elicit-analysis <b>climate</b>" := by
  refine ⟨by decide, by decide, by decide, by decide⟩

/-- Claim C4 (amended): for a search with field "all" or omitted whose
lowercased query first occurs at index i of the lowercased note content of
length L, the slice taken is exactly the characters `[max(0, i-100),
min(L, i+200))` of that lowercased content (at most 300 characters), and
the returned match_context is that slice passed through
`cleanHTMLForDisplay` (so HTML in the window is stripped and the ends may
be trimmed, rather than the snippet being the raw slice). -/
theorem search_all_context_slice (args : SearchArgs) (it : Item) (en : Child) (i : Nat)
    (hf : args.search_field = some "all" ∨ args.search_field = none)
    (hen : findElicitNote it = some en)
    (hi : indexOfSub? (lowerChars args.query.data)
      (lowerChars ((en.note.getD "").data)) = some i)
    (hfil : passesFilters args (lowerChars ((en.note.getD "").data)) = true) :
    itemResult args it = some
      { key := it.key, title := it.title, authors := it.creators.getD [],
        match_context := cleanHTMLForDisplay (String.mk
          (((lowerChars ((en.note.getD "").data)).drop (i - 100)).take
            (min (lowerChars ((en.note.getD "").data)).length (i + 200) - (i - 100)))),
        elicit_note_key := en.key } ∧
    (((lowerChars ((en.note.getD "").data)).drop (i - 100)).take
        (min (lowerChars ((en.note.getD "").data)).length (i + 200) - (i - 100))).length
      ≤ 300 := by
  constructor
  · have hmc : itemMatchContext args (lowerChars ((en.note.getD "").data)) =
        some (((lowerChars ((en.note.getD "").data)).drop (i - 100)).take
          (min (lowerChars ((en.note.getD "").data)).length (i + 200) - (i - 100))) := by
      rw [itemMatchContext_all hf]
      unfold allFieldMatch
      rw [hi]
    unfold itemResult
    rw [hen]
    dsimp only
    rw [hmc]
    dsimp only
    rw [if_pos hfil]
  · have h1 : (((lowerChars ((en.note.getD "").data)).drop (i - 100)).take
        (min (lowerChars ((en.note.getD "").data)).length (i + 200) - (i - 100))).length
        ≤ min (lowerChars ((en.note.getD "").data)).length (i + 200) - (i - 100) := by
      rw [List.length_take]
      omega
    have h2 : min (lowerChars ((en.note.getD "").data)).length (i + 200) ≤ i + 200 :=
      Nat.min_le_right _ _
    omega

def c4wNote : String :=
  String.mk ("elicit-analysis ".data ++ List.replicate 434 'a' ++
    "climate".data ++ List.replicate 43 'b')

def c4wChild : Child :=
  { key := "ND", itemType := "note", note := some c4wNote }

def c4wItem : Item :=
  { key := "D1", title := "TD", creators := none, children := [c4wChild] }

set_option maxRecDepth 100000 in
/-- Witness for the amended claim C4: a 500-character note content with the
match at index 450 — the slice spans `[350, 500)` and stays in bounds. -/
theorem search_all_context_slice_witness :
    itemResult c4Args c4wItem = some
      { key := c4wItem.key, title := c4wItem.title, authors := c4wItem.creators.getD [],
        match_context := cleanHTMLForDisplay (String.mk
          (((lowerChars ((c4wChild.note.getD "").data)).drop (450 - 100)).take
            (min (lowerChars ((c4wChild.note.getD "").data)).length (450 + 200)
              - (450 - 100)))),
        elicit_note_key := c4wChild.key } ∧
    (((lowerChars ((c4wChild.note.getD "").data)).drop (450 - 100)).take
        (min (lowerChars ((c4wChild.note.getD "").data)).length (450 + 200)
          - (450 - 100))).length ≤ 300 :=
  search_all_context_slice c4Args c4wItem c4wChild 450
    (Or.inl rfl) (by decide) (by decide) (by decide)

theorem compAdd_mem_iff {m : List (String × List CompEntry)} {k : String}
    {e : CompEntry} {k' : String} {x : CompEntry} :
    (∃ l, (k', l) ∈ compAdd m k e ∧ x ∈ l) ↔
      (∃ l, (k', l) ∈ m ∧ x ∈ l) ∨ (k' = k ∧ x = e) := by
  induction m with
  | nil =>
    have hred : compAdd [] k e = [(k, [e])] := rfl
    rw [hred]
    constructor
    · rintro ⟨l, hmem, hx⟩
      have heq := List.mem_singleton.mp hmem
      injection heq with h1 h2
      subst h1
      subst h2
      rcases List.mem_singleton.mp hx with rfl
      exact Or.inr ⟨rfl, rfl⟩
    · rintro (⟨l, hmem, _⟩ | ⟨h1, h2⟩)
      · simp at hmem
      · refine ⟨[e], ?_, ?_⟩
        · rw [h1]
          exact List.mem_singleton.mpr rfl
        · rw [h2]
          exact List.mem_singleton.mpr rfl
  | cons p rest ih =>
    obtain ⟨a, l0⟩ := p
    by_cases hak : a = k
    · subst hak
      have hred : compAdd ((a, l0) :: rest) a e = (a, l0 ++ [e]) :: rest := by
        simp [compAdd]
      rw [hred]
      constructor
      · rintro ⟨l, hmem, hx⟩
        rcases List.mem_cons.mp hmem with heq | hmem'
        · injection heq with h1 h2
          subst h1
          subst h2
          rcases List.mem_append.mp hx with hx1 | hx1
          · exact Or.inl ⟨l0, List.mem_cons_self _ _, hx1⟩
          · rcases List.mem_singleton.mp hx1 with rfl
            exact Or.inr ⟨rfl, rfl⟩
        · exact Or.inl ⟨l, List.mem_cons_of_mem _ hmem', hx⟩
      · rintro (⟨l, hmem, hx⟩ | ⟨h1, h2⟩)
        · rcases List.mem_cons.mp hmem with heq | hmem'
          · injection heq with h3 h4
            refine ⟨l0 ++ [e], ?_, ?_⟩
            · rw [h3]
              exact List.mem_cons_self _ _
            · exact List.mem_append_left _ (h4 ▸ hx)
          · exact ⟨l, List.mem_cons_of_mem _ hmem', hx⟩
        · refine ⟨l0 ++ [e], ?_, ?_⟩
          · rw [h1]
            exact List.mem_cons_self _ _
          · rw [h2]
            exact List.mem_append_right _ (List.mem_singleton.mpr rfl)
    · have hred : compAdd ((a, l0) :: rest) k e = (a, l0) :: compAdd rest k e := by
        simp [compAdd, hak]
      rw [hred]
      constructor
      · rintro ⟨l, hmem, hx⟩
        rcases List.mem_cons.mp hmem with heq | hmem'
        · injection heq with h1 h2
          subst h1
          subst h2
          exact Or.inl ⟨l, List.mem_cons_self _ _, hx⟩
        · rcases ih.mp ⟨l, hmem', hx⟩ with ⟨l2, hm2, hx2⟩ | hkx
          · exact Or.inl ⟨l2, List.mem_cons_of_mem _ hm2, hx2⟩
          · exact Or.inr hkx
      · rintro (⟨l, hmem, hx⟩ | hkx)
        · rcases List.mem_cons.mp hmem with heq | hmem'
          · injection heq with h1 h2
            subst h1
            subst h2
            exact ⟨l, List.mem_cons_self _ _, hx⟩
          · rcases ih.mpr (Or.inl ⟨l, hmem', hx⟩) with ⟨l2, hm2, hx2⟩
            exact ⟨l2, List.mem_cons_of_mem _ hm2, hx2⟩
        · rcases ih.mpr (Or.inr hkx) with ⟨l2, hm2, hx2⟩
          exact ⟨l2, List.mem_cons_of_mem _ hm2, hx2⟩

theorem compare_foldl_mem (f : String) (k' : String) (x : CompEntry) :
    ∀ (items : List Item) (m : List (String × List CompEntry)),
    (∃ l, (k', l) ∈ items.foldl (compStep f) m ∧ x ∈ l) ↔
      ((∃ l, (k', l) ∈ m ∧ x ∈ l) ∨
       ∃ it ∈ items, ∃ en, findElicitNote it = some en ∧
         k' = extractFocusValue f ((en.note.getD "").data) ∧
         x = { key := it.key, title := it.title, authors := it.creators.getD [] }) := by
  intro items
  induction items with
  | nil =>
    intro m
    simp
  | cons it rest ih =>
    intro m
    rw [List.foldl_cons, ih]
    cases hen : findElicitNote it with
    | none =>
      constructor
      · rintro (h | h)
        · rw [show compStep f m it = m by unfold compStep; rw [hen]] at h
          exact Or.inl h
        · obtain ⟨it', hmem, rest'⟩ := h
          exact Or.inr ⟨it', List.mem_cons_of_mem _ hmem, rest'⟩
      · rintro (h | ⟨it', hmem, en', hen', hrest⟩)
        · rw [show compStep f m it = m by unfold compStep; rw [hen]]
          exact Or.inl h
        · rcases List.mem_cons.mp hmem with rfl | hmem'
          · rw [hen'] at hen
            cases hen
          · exact Or.inr ⟨it', hmem', en', hen', hrest⟩
    | some en =>
      have hstep : compStep f m it =
          compAdd m (extractFocusValue f ((en.note.getD "").data))
            { key := it.key, title := it.title, authors := it.creators.getD [] } := by
        unfold compStep
        rw [hen]
      rw [hstep, compAdd_mem_iff]
      constructor
      · rintro ((h | ⟨hk, hx⟩) | h)
        · exact Or.inl h
        · exact Or.inr ⟨it, List.mem_cons_self _ _, en, hen, hk, hx⟩
        · obtain ⟨it', hmem, rest'⟩ := h
          exact Or.inr ⟨it', List.mem_cons_of_mem _ hmem, rest'⟩
      · rintro (h | ⟨it', hmem, en', hen', hk, hx⟩)
        · exact Or.inl (Or.inl h)
        · rcases List.mem_cons.mp hmem with rfl | hmem'
          · rw [hen'] at hen
            injection hen with hen
            subst hen
            exact Or.inl (Or.inr ⟨hk, hx⟩)
          · exact Or.inr ⟨it', hmem', en', hen', hk, hx⟩

theorem compare_mem_iff (f : String) (items : List Item) (k' : String) (x : CompEntry) :
    (∃ l, (k', l) ∈ compareMethodologies f items ∧ x ∈ l) ↔
      ∃ it ∈ items, ∃ en, findElicitNote it = some en ∧
        k' = extractFocusValue f ((en.note.getD "").data) ∧
        x = { key := it.key, title := it.title, authors := it.creators.getD [] } := by
  rw [show compareMethodologies f items = items.foldl (compStep f) [] from rfl,
    compare_foldl_mem]
  simp

/-- Claim C6: for a focus area among study_design, statistical_techniques,
interventions and outcomes, every item carrying a structured note (assuming
distinct item keys) appears in exactly one group of the comparison map —
the group keyed by its extracted focus value — with a failed Intervention
extraction coalesced to "No intervention" and any other failed extraction
coalesced to "Not specified". -/
theorem compare_partition (f : String) (items : List Item) (it : Item) (en : Child)
    (hf : f = "study_design" ∨ f = "statistical_techniques" ∨
      f = "interventions" ∨ f = "outcomes")
    (hkeys : (items.map Item.key).Nodup)
    (hit : it ∈ items) (hen : findElicitNote it = some en) :
    (∃! k, ∃ l, (k, l) ∈ compareMethodologies f items ∧
      ({ key := it.key, title := it.title,
         authors := it.creators.getD [] } : CompEntry) ∈ l) ∧
    (∃ l, (extractFocusValue f ((en.note.getD "").data), l) ∈
        compareMethodologies f items ∧
      ({ key := it.key, title := it.title,
         authors := it.creators.getD [] } : CompEntry) ∈ l) ∧
    (f = "interventions" →
      regexHeaderPara "intervention" ((en.note.getD "").data) = none →
      extractFocusValue f ((en.note.getD "").data) = "No intervention") ∧
    (f = "study_design" →
      regexHeaderPara "study design" ((en.note.getD "").data) = none →
      extractFocusValue f ((en.note.getD "").data) = "Not specified") ∧
    (f = "statistical_techniques" →
      regexHeaderPara "statistical techniques" ((en.note.getD "").data) = none →
      extractFocusValue f ((en.note.getD "").data) = "Not specified") ∧
    (f = "outcomes" →
      regexHeaderPara "outcome measured" ((en.note.getD "").data) = none →
      extractFocusValue f ((en.note.getD "").data) = "Not specified") := by
  have hex : ∃ l, (extractFocusValue f ((en.note.getD "").data), l) ∈
      compareMethodologies f items ∧
      ({ key := it.key, title := it.title,
         authors := it.creators.getD [] } : CompEntry) ∈ l :=
    (compare_mem_iff f items _ _).mpr ⟨it, hit, en, hen, rfl, rfl⟩
  refine ⟨⟨extractFocusValue f ((en.note.getD "").data), hex, ?_⟩, hex, ?_, ?_, ?_, ?_⟩
  · intro k hk
    rcases (compare_mem_iff f items k _).mp hk with ⟨it2, hit2, en2, hen2, hk2, hx2⟩
    have hkeq : it2.key = it.key := by
      have := congrArg CompEntry.key hx2
      simpa using this.symm
    have hsame : it2 = it := List.inj_on_of_nodup_map hkeys hit2 hit hkeq
    subst hsame
    rw [hen2] at hen
    injection hen with hen
    subst hen
    exact hk2
  · intro hfa hnone
    subst hfa
    unfold extractFocusValue
    rw [if_neg (by decide), if_neg (by decide), if_pos rfl, hnone]
  · intro hfa hnone
    subst hfa
    unfold extractFocusValue
    rw [if_pos rfl, hnone]
  · intro hfa hnone
    subst hfa
    unfold extractFocusValue
    rw [if_neg (by decide), if_pos rfl, hnone]
  · intro hfa hnone
    subst hfa
    unfold extractFocusValue
    rw [if_neg (by decide), if_neg (by decide), if_neg (by decide), if_pos rfl, hnone]

def c6Child : Child :=
  { key := "N1", itemType := "note",
    note := some "xx Elicit Analysis yy Study Design</h3><p>Randomized Controlled Trial</p> zz" }

def c6Item : Item :=
  { key := "A1", title := "Paper A", creators := none, children := [c6Child] }

/-- Witness for claim C6 on the spec's scenario A: the one structured item
appears in exactly one comparison group. -/
theorem compare_partition_witness :
    ∃! k, ∃ l, (k, l) ∈ compareMethodologies "study_design" [c6Item] ∧
      ({ key := c6Item.key, title := c6Item.title,
         authors := c6Item.creators.getD [] } : CompEntry) ∈ l :=
  (compare_partition "study_design" [c6Item] c6Item c6Child
    (Or.inl rfl) (by decide) (by decide) (by decide)).1

theorem groupGaps_foldl (gaps : List GapRecord) :
    ∀ (kws : List String) (m : List (String × List GapRecord)),
    kws.foldl (groupStep gaps) m =
      m ++ kws.filterMap (fun kw =>
        if gapBucket gaps kw = [] then none else some (kw, gapBucket gaps kw)) := by
  intro kws
  induction kws with
  | nil =>
    intro m
    simp
  | cons kw rest ih =>
    intro m
    rw [List.foldl_cons]
    rw [List.filterMap_cons
      (fun kw => if gapBucket gaps kw = [] then none else some (kw, gapBucket gaps kw))
      kw rest]
    by_cases hb : gapBucket gaps kw = []
    · have hstep : groupStep gaps m kw = m := by
        unfold groupStep
        rw [if_pos hb]
      rw [hstep, ih, if_pos hb]
    · have hstep : groupStep gaps m kw = m ++ [(kw, gapBucket gaps kw)] := by
        unfold groupStep
        rw [if_neg hb]
      rw [hstep, ih, if_neg hb, List.append_assoc, List.singleton_append]

theorem groupGaps_mem {gaps : List GapRecord} {kw : String} {l : List GapRecord}
    (h : (kw, l) ∈ groupGaps gaps) :
    kw ∈ gapKeywords ∧ l = gapBucket gaps kw := by
  unfold groupGaps at h
  rw [groupGaps_foldl] at h
  rw [List.nil_append] at h
  rcases List.mem_filterMap.mp h with ⟨kw', hkw', hsome⟩
  by_cases hb : gapBucket gaps kw' = []
  · rw [if_pos hb] at hsome
    cases hsome
  · rw [if_neg hb] at hsome
    injection hsome with hsome
    injection hsome with h1 h2
    subst h1
    subst h2
    exact ⟨hkw', rfl⟩

theorem groupGaps_mem_of {gaps : List GapRecord} {kw : String}
    (hkw : kw ∈ gapKeywords) (hne : gapBucket gaps kw ≠ []) :
    (kw, gapBucket gaps kw) ∈ groupGaps gaps := by
  unfold groupGaps
  rw [groupGaps_foldl, List.nil_append]
  exact List.mem_filterMap.mpr ⟨kw, hkw, by rw [if_neg hne]⟩

/-- Claim C7: every gap record placed in a keyword bucket contains that
keyword as a case-insensitive substring of its gap text, and a record whose
text also contains a second keyword appears in that keyword's bucket as
well — bucket membership is not mutually exclusive. -/
theorem gaps_bucket_keyword (gaps : List GapRecord) (kw : String)
    (l : List GapRecord) (g : GapRecord) (k2 : String)
    (hkl : (kw, l) ∈ groupGaps gaps) (hg : g ∈ l)
    (hk2 : k2 ∈ gapKeywords)
    (h2 : containsSub k2.data (lowerChars g.research_gap.data) = true) :
    containsSub kw.data (lowerChars g.research_gap.data) = true ∧
    (∃ l2, (k2, l2) ∈ groupGaps gaps ∧ g ∈ l2) := by
  obtain ⟨hkw, rfl⟩ := groupGaps_mem hkl
  have h1 := @List.of_mem_filter GapRecord
    (fun g => containsSub kw.data (lowerChars g.research_gap.data)) g gaps hg
  refine ⟨h1, ?_⟩
  have hgg : g ∈ gaps := List.mem_of_mem_filter hg
  have hmem2 : g ∈ gapBucket gaps k2 := List.mem_filter.mpr ⟨hgg, h2⟩
  exact ⟨gapBucket gaps k2, groupGaps_mem_of hk2 (List.ne_nil_of_mem hmem2), hmem2⟩

def c7Gaps : List GapRecord :=
  [{ paper_key := "C1", paper_title := "Paper C",
     research_gap := "Need longitudinal studies with causal design",
     gapType := none }]

/-- Witness for claim C7 on the spec's scenario C: the record sits in the
"longitudinal" bucket and also in the "causal" bucket. -/
theorem gaps_bucket_keyword_witness :
    containsSub "longitudinal".data
      (lowerChars ("Need longitudinal studies with causal design" : String).data) = true ∧
    (∃ l2, ("causal", l2) ∈ groupGaps c7Gaps ∧
      ({ paper_key := "C1", paper_title := "Paper C",
         research_gap := "Need longitudinal studies with causal design",
         gapType := none } : GapRecord) ∈ l2) :=
  gaps_bucket_keyword c7Gaps "longitudinal" (gapBucket c7Gaps "longitudinal")
    { paper_key := "C1", paper_title := "Paper C",
      research_gap := "Need longitudinal studies with causal design",
      gapType := none } "causal"
    (by decide) (by decide) (by decide) (by decide)

/-- Claim C8: a value extracted from the "Research Gaps" or "Future
Research" section becomes a gap record iff it is non-empty, not the literal
"Not specified", and strictly longer than 10 characters; each paper
contributes at most two records, the "Future Research" one carrying the
marker "future_research". -/
theorem gaps_record_criteria (it : Item) (en : Child)
    (hen : findElicitNote it = some en) :
    (itemGaps it).length ≤ 2 ∧
    (∀ cap, regexHeaderPara "research gaps" ((en.note.getD "").data) = some cap →
      (({ paper_key := it.key, paper_title := it.title,
          research_gap := cleanHTMLForDisplay (String.mk cap),
          gapType := none } : GapRecord) ∈ itemGaps it ↔
        (cleanHTMLForDisplay (String.mk cap) ≠ "" ∧
         cleanHTMLForDisplay (String.mk cap) ≠ "Not specified" ∧
         10 < (cleanHTMLForDisplay (String.mk cap)).length))) ∧
    (∀ cap, regexHeaderPara "future research" ((en.note.getD "").data) = some cap →
      (({ paper_key := it.key, paper_title := it.title,
          research_gap := cleanHTMLForDisplay (String.mk cap),
          gapType := some "future_research" } : GapRecord) ∈ itemGaps it ↔
        (cleanHTMLForDisplay (String.mk cap) ≠ "" ∧
         cleanHTMLForDisplay (String.mk cap) ≠ "Not specified" ∧
         10 < (cleanHTMLForDisplay (String.mk cap)).length))) ∧
    (∀ g ∈ itemGaps it, g.gapType = none ∨ g.gapType = some "future_research") ∧
    (regexHeaderPara "research gaps" ((en.note.getD "").data) = none →
      ∀ g ∈ itemGaps it, g.gapType = some "future_research") := by
  have hitem : itemGaps it =
      (match regexHeaderPara "research gaps" ((en.note.getD "").data) with
       | some cap =>
         let t := cleanHTMLForDisplay (String.mk cap)
         if t ≠ "" ∧ t ≠ "Not specified" ∧ 10 < t.length then
           [{ paper_key := it.key, paper_title := it.title,
              research_gap := t, gapType := none }]
         else []
       | none => []) ++
      (match regexHeaderPara "future research" ((en.note.getD "").data) with
       | some cap =>
         let t := cleanHTMLForDisplay (String.mk cap)
         if t ≠ "" ∧ t ≠ "Not specified" ∧ 10 < t.length then
           [{ paper_key := it.key, paper_title := it.title,
              research_gap := t, gapType := some "future_research" }]
         else []
       | none => []) := by
    unfold itemGaps
    rw [hen]
  cases hr1 : regexHeaderPara "research gaps" ((en.note.getD "").data) with
  | none =>
    cases hr2 : regexHeaderPara "future research" ((en.note.getD "").data) with
    | none =>
      rw [hr1, hr2] at hitem
      dsimp only at hitem
      refine ⟨by rw [hitem]; simp, ?_, ?_, ?_, ?_⟩
      · intro cap hcap
        cases hcap
      · intro cap hcap
        cases hcap
      · rw [hitem]
        simp
      · intro _
        rw [hitem]
        simp
    | some cap2 =>
      rw [hr1, hr2] at hitem
      dsimp only at hitem
      by_cases hc2 : cleanHTMLForDisplay (String.mk cap2) ≠ "" ∧
          cleanHTMLForDisplay (String.mk cap2) ≠ "Not specified" ∧
          10 < (cleanHTMLForDisplay (String.mk cap2)).length
      · rw [if_pos hc2] at hitem
        refine ⟨by rw [hitem]; simp, ?_, ?_, ?_, ?_⟩
        · intro cap hcap
          cases hcap
        · intro cap hcap
          injection hcap with hcap
          subst hcap
          exact iff_of_true (by rw [hitem]; simp) hc2
        · rw [hitem]
          intro g hg
          simp only [List.nil_append, List.mem_singleton] at hg
          subst hg
          exact Or.inr rfl
        · intro _
          rw [hitem]
          intro g hg
          simp only [List.nil_append, List.mem_singleton] at hg
          subst hg
          rfl
      · rw [if_neg hc2] at hitem
        refine ⟨by rw [hitem]; simp, ?_, ?_, ?_, ?_⟩
        · intro cap hcap
          cases hcap
        · intro cap hcap
          injection hcap with hcap
          subst hcap
          exact iff_of_false (by rw [hitem]; simp) hc2
        · rw [hitem]
          simp
        · intro _
          rw [hitem]
          simp
  | some cap1 =>
    cases hr2 : regexHeaderPara "future research" ((en.note.getD "").data) with
    | none =>
      rw [hr1, hr2] at hitem
      dsimp only at hitem
      by_cases hc1 : cleanHTMLForDisplay (String.mk cap1) ≠ "" ∧
          cleanHTMLForDisplay (String.mk cap1) ≠ "Not specified" ∧
          10 < (cleanHTMLForDisplay (String.mk cap1)).length
      · rw [if_pos hc1] at hitem
        refine ⟨by rw [hitem]; simp, ?_, ?_, ?_, ?_⟩
        · intro cap hcap
          injection hcap with hcap
          subst hcap
          exact iff_of_true (by rw [hitem]; simp) hc1
        · intro cap hcap
          cases hcap
        · rw [hitem]
          intro g hg
          simp only [List.append_nil, List.mem_singleton] at hg
          subst hg
          exact Or.inl rfl
        · intro h0
          cases h0
      · rw [if_neg hc1] at hitem
        refine ⟨by rw [hitem]; simp, ?_, ?_, ?_, ?_⟩
        · intro cap hcap
          injection hcap with hcap
          subst hcap
          exact iff_of_false (by rw [hitem]; simp) hc1
        · intro cap hcap
          cases hcap
        · rw [hitem]
          simp
        · intro h0
          cases h0
    | some cap2 =>
      rw [hr1, hr2] at hitem
      dsimp only at hitem
      by_cases hc1 : cleanHTMLForDisplay (String.mk cap1) ≠ "" ∧
          cleanHTMLForDisplay (String.mk cap1) ≠ "Not specified" ∧
          10 < (cleanHTMLForDisplay (String.mk cap1)).length
      all_goals by_cases hc2 : cleanHTMLForDisplay (String.mk cap2) ≠ "" ∧
          cleanHTMLForDisplay (String.mk cap2) ≠ "Not specified" ∧
          10 < (cleanHTMLForDisplay (String.mk cap2)).length
      · rw [if_pos hc1, if_pos hc2] at hitem
        refine ⟨by rw [hitem]; simp, ?_, ?_, ?_, ?_⟩
        · intro cap hcap
          injection hcap with hcap
          subst hcap
          exact iff_of_true (by rw [hitem]; simp) hc1
        · intro cap hcap
          injection hcap with hcap
          subst hcap
          exact iff_of_true (by rw [hitem]; simp) hc2
        · rw [hitem]
          intro g hg
          rcases List.mem_append.mp hg with h1 | h1 <;>
            rw [List.mem_singleton] at h1 <;> subst h1
          · exact Or.inl rfl
          · exact Or.inr rfl
        · intro h0
          cases h0
      · rw [if_pos hc1, if_neg hc2] at hitem
        refine ⟨by rw [hitem]; simp, ?_, ?_, ?_, ?_⟩
        · intro cap hcap
          injection hcap with hcap
          subst hcap
          exact iff_of_true (by rw [hitem]; simp) hc1
        · intro cap hcap
          injection hcap with hcap
          subst hcap
          refine iff_of_false ?_ hc2
          rw [hitem]
          simp [GapRecord.mk.injEq]
        · rw [hitem]
          intro g hg
          simp only [List.append_nil, List.mem_singleton] at hg
          subst hg
          exact Or.inl rfl
        · intro h0
          cases h0
      · rw [if_neg hc1, if_pos hc2] at hitem
        refine ⟨by rw [hitem]; simp, ?_, ?_, ?_, ?_⟩
        · intro cap hcap
          injection hcap with hcap
          subst hcap
          refine iff_of_false ?_ hc1
          rw [hitem]
          simp [GapRecord.mk.injEq]
        · intro cap hcap
          injection hcap with hcap
          subst hcap
          exact iff_of_true (by rw [hitem]; simp) hc2
        · rw [hitem]
          intro g hg
          simp only [List.nil_append, List.mem_singleton] at hg
          subst hg
          exact Or.inr rfl
        · intro h0
          cases h0
      · rw [if_neg hc1, if_neg hc2] at hitem
        refine ⟨by rw [hitem]; simp, ?_, ?_, ?_, ?_⟩
        · intro cap hcap
          injection hcap with hcap
          subst hcap
          exact iff_of_false (by rw [hitem]; simp) hc1
        · intro cap hcap
          injection hcap with hcap
          subst hcap
          exact iff_of_false (by rw [hitem]; simp) hc2
        · rw [hitem]
          simp
        · intro h0
          cases h0

def c8Child : Child :=
  { key := "N8", itemType := "note",
    note := some "elicit-analysis Research Gaps</h3><p>Need longitudinal studies with causal design</p>" }

def c8Item : Item :=
  { key := "C8", title := "Paper C8", creators := none, children := [c8Child] }

/-- Witness for claim C8 at a concrete structured item. -/
theorem gaps_record_criteria_witness : (itemGaps c8Item).length ≤ 2 :=
  (gaps_record_criteria c8Item c8Child (by decide)).1

/-- Claim C1, counterexample: the note body `"Elicit-Analysis"` contains
`"elicit-analysis"` as a case-insensitive substring (its lowercasing
contains it literally), so the claim requires the classifier to accept it;
the classifier's `includes` checks are case-sensitive and reject it. -/
theorem C1_counterexample :
    containsSub "elicit-analysis".data (lowerChars "Elicit-Analysis".data) = true ∧
    isStructuredNote { key := "k", itemType := "note", note := some "Elicit-Analysis" } = false := by
  constructor
  · decide
  · decide

/-- Claim C1 (amended): the classifier returns true iff the item type is
`"note"` and the content contains `"Elicit Analysis"` or `"elicit-analysis"`
as an exact case-sensitive substring; differently-cased variants such as
`"Elicit-Analysis"` are rejected, and so is near-miss text like
`"ElicitAnalysis"`. -/
theorem isStructuredNote_characterization (c : Child) :
    isStructuredNote c = true ↔
      (c.itemType = "note" ∧ ∃ n, c.note = some n ∧
        ((∃ a b, n.data = a ++ "Elicit Analysis".data ++ b) ∨
         (∃ a b, n.data = a ++ "elicit-analysis".data ++ b))) := by
  cases c with
  | mk key itemType note =>
    cases note with
    | none => simp [isStructuredNote]
    | some n =>
      simp only [isStructuredNote, Bool.and_eq_true, beq_iff_eq,
        Bool.or_eq_true, containsSub_iff]
      constructor
      · rintro ⟨h1, h2⟩
        exact ⟨h1, n, rfl, h2⟩
      · rintro ⟨h1, n', hn', h2⟩
        injection hn' with hn'
        subst hn'
        exact ⟨h1, h2⟩

/-- Witness for the amended claim C1 at a concrete structured note. -/
theorem isStructuredNote_characterization_witness :
    isStructuredNote
      { key := "k", itemType := "note",
        note := some "xx Elicit Analysis yy" } = true :=
  (isStructuredNote_characterization _).mpr
    ⟨rfl, "xx Elicit Analysis yy", rfl,
      Or.inl ⟨"xx ".data, " yy".data, by decide⟩⟩

/-- Claim C2, counterexample: on the empty item collection the code
computes `Math.round((0 / 0) * 100)`, which is `NaN` — the percentage is
not guarded or flagged, contradicting the claim. -/
theorem C2_counterexample :
    (getElicitSummary false []).coverage_percentage = JSNum.nan := by
  decide

/-- Claim C2 (amended): summarizing the empty collection yields
`total_papers = 0`, `papers_with_elicit = 0`, empty frequency maps, and a
`coverage_percentage` equal to `NaN` (no guard exists in the code). -/
theorem getElicitSummary_empty :
    getElicitSummary false [] =
      { summary := { total_papers := 0, papers_with_elicit := 0,
                     analysis_coverage := [], study_designs := [],
                     regions := [], methodologies := [] },
        coverage_percentage := JSNum.nan,
        detailed_breakdown := none } := by
  decide

/-- Claim C3, counterexample: the normalizer decodes angle-bracket entities
after stripping tags, so the input `"&lt;p&gt;"` — whose content encodes a
tag as entities — produces the output `"<p>"`, which contains `<` and `>`. -/
theorem C3_counterexample :
    cleanHTMLForDisplay "&lt;p&gt;" = "<p>" ∧
    '<' ∈ (cleanHTMLForDisplay "&lt;p&gt;").data ∧
    '>' ∈ (cleanHTMLForDisplay "&lt;p&gt;").data := by
  refine ⟨by decide, by decide, by decide⟩

/-- Claim C9, counterexample: the tag-stripping pass runs before the
`<br>`-to-space replacement and removes every raw `<br>`, so
`"cat<br>dog"` normalizes to `"catdog"`, not `"cat dog"`. -/
theorem C9_counterexample :
    cleanHTMLForDisplay "cat<br>dog" = "catdog" ∧
    cleanHTMLForDisplay "cat<br>dog" ≠ "cat dog" := by
  refine ⟨by decide, by decide⟩

/-- Claim C5, counterexample: a search call with `limit = 0` (a falsy
JavaScript number, coalesced to the default 10 by `args.limit || 10`)
returns one result on a one-match collection, exceeding the requested
limit of zero. -/
def c5Args : SearchArgs :=
  { query := "climate", search_field := some "all", study_design := none,
    has_intervention := none, limit := some 0 }

def c5Items : List Item :=
  [{ key := "K4", title := "T4", creators := none,
     children := [{ key := "N4", itemType := "note",
                    note := some "elicit-analysis <b>Climate</b>" }] }]

theorem C5_counterexample :
    (searchByElicitMetadata c5Args c5Items).length = 1 ∧
    ¬ ((searchByElicitMetadata c5Args c5Items).length ≤ 0) := by
  refine ⟨by decide, by decide⟩

end ZoteroMCP
